import Mathlib

/-!
Verification of the fastx streaming FASTA/FASTQ reader.

The Rust sources (`src/lib.rs`, `src/util.rs`, `src/seq.rs`, `src/errors.rs`)
are shallowly embedded here:

* a byte is a `Nat` (values below 256 in real streams);
* a physical line, as produced by `read_until(b'\n')`, is a `List Nat`
  holding the bytes of the line including its terminator (the final line of
  a stream may lack the terminator);
* `splitLines` models the decomposition of a raw byte stream into the
  successive `read_until` results;
* `nextRec` models one call of `Reader::next`, acting on an explicit state
  `(lookahead_line, remaining lines)`;
* `parseAllF` iterates `nextRec` with explicit fuel (each successful call
  consumes at least one line or the lookahead slot, so the initial measure
  is enough fuel), and `parseAll` / `parseBytes` instantiate that fuel.

The convenience operations of `src/seq.rs` (`rc`, `rc_unchecked`,
`count_base_fn`, `gc_content`) and the compression sniffing of
`src/util.rs` (`xopen`) are embedded directly as pure functions.
-/

namespace Fastx

/-- A physical line: the bytes returned by one `read_until(b'\n')` call. -/
abbrev Line := List Nat

/-- `errors.rs`: the `FastxErr` variants the pure parser can raise
(`IOError` carries an I/O failure of the underlying stream and does not
arise for the in-memory streams modelled here). -/
inductive FastxErr where
  | invalidFormat : FastxErr
  | unequalSeqAndQual : Nat → Nat → FastxErr
deriving DecidableEq, Repr

/-- `seq.rs`: the borrowed record view `Seq`, with owned bytes here. -/
structure Seq where
  id : List Nat
  desc : List Nat
  seq : List Nat
  qual : Option (List Nat)
deriving DecidableEq, Repr

instance {ε α : Type} [DecidableEq ε] [DecidableEq α] :
    DecidableEq (Except ε α) := fun a b =>
  match a, b with
  | Except.ok x, Except.ok y =>
    if h : x = y then Decidable.isTrue (by rw [h])
    else Decidable.isFalse (by simp [h])
  | Except.error x, Except.error y =>
    if h : x = y then Decidable.isTrue (by rw [h])
    else Decidable.isFalse (by simp [h])
  | Except.ok _, Except.error _ => Decidable.isFalse (by simp)
  | Except.error _, Except.ok _ => Decidable.isFalse (by simp)

/-- `util.rs` `trim_crlf`: drop one trailing `\n`, then one trailing `\r`. -/
def trim_crlf (l : List Nat) : List Nat :=
  let l1 := if l.getLast? = some 10 then l.dropLast else l
  if l1.getLast? = some 13 then l1.dropLast else l1

/-- Second loop of `lib.rs` `parse_header`: skip the run of spaces/tabs. -/
def skip_ws : List Nat → List Nat
  | [] => []
  | b :: rest => if b = 32 ∨ b = 9 then skip_ws rest else b :: rest

/-- `lib.rs` `parse_header`: the id is the bytes before the first space or
tab, the description is the rest with the following space/tab run skipped. -/
def parse_header : List Nat → List Nat × List Nat
  | [] => ([], [])
  | b :: rest =>
    if b = 32 ∨ b = 9 then ([], skip_ws (b :: rest))
    else
      let p := parse_header rest
      (b :: p.1, p.2)

/-- The skip condition of all three reading loops in `Reader::next`:
`self.line_buf[0] == b'\n'`. -/
def isBlank (l : Line) : Bool := l.head? == some 10

/-- Step 2 of `Reader::next` (sequence accumulation): skip `\n`-only lines,
stop on a `>` line keeping it as lookahead, stop on a `+` line in FASTQ
mode discarding it, otherwise append the trimmed line to the buffer. -/
def seqLoop (is_fastq : Bool) (acc : List Nat) :
    List Line → List Nat × Option Line × List Line
  | [] => (acc, none, [])
  | l :: rest =>
    if isBlank l then seqLoop is_fastq acc rest
    else if l.head? = some 62 then (acc, some l, rest)
    else if is_fastq ∧ l.head? = some 43 then (acc, none, rest)
    else seqLoop is_fastq (acc ++ trim_crlf l) rest

/-- Step 3 of `Reader::next` (quality accumulation): while fewer quality
bytes than `target` have been appended, read lines, skipping `\n`-only
lines and appending the trimmed content of the others. -/
def qualLoop (target : Nat) (qacc : List Nat) :
    List Line → List Nat × List Line
  | [] => (qacc, [])
  | l :: rest =>
    if target ≤ qacc.length then (qacc, l :: rest)
    else if isBlank l then qualLoop target qacc rest
    else qualLoop target (qacc ++ trim_crlf l) rest

/-- The sequence-loop outcome of one `next` call: `(sequence region,
lookahead, remaining lines)`; the Rust local `let seq_len = seq_end -
header_end` is `(seqRes _ _).1.length`. -/
def seqRes (is_fastq : Bool) (ls : List Line) :
    List Nat × Option Line × List Line :=
  seqLoop is_fastq [] ls

/-- The quality-loop outcome following the sequence loop: `(quality
region, remaining lines)`. -/
def qualRes (is_fastq : Bool) (ls : List Line) : List Nat × List Line :=
  qualLoop (seqRes is_fastq ls).1.length [] (seqRes is_fastq ls).2.2

/-- `Reader::next` after the header line has been resolved: run the
sequence loop, then for FASTQ the quality loop followed by the overshoot
check and the final length check (together: `q_len != seq_len` fails with
`UnequalSeqAndQual(seq_len, q_len)`), and emit the record. -/
def afterHeader (is_fastq : Bool) (header : List Nat) (ls : List Line) :
    Option (Except FastxErr Seq) × (Option Line × List Line) :=
  if is_fastq then
    if (qualRes is_fastq ls).1.length = (seqRes is_fastq ls).1.length then
      (some (Except.ok ⟨(parse_header header).1, (parse_header header).2,
        (seqRes is_fastq ls).1, some (qualRes is_fastq ls).1⟩),
       ((seqRes is_fastq ls).2.1, (qualRes is_fastq ls).2))
    else
      (some (Except.error (FastxErr.unequalSeqAndQual
        (seqRes is_fastq ls).1.length (qualRes is_fastq ls).1.length)),
       ((seqRes is_fastq ls).2.1, (qualRes is_fastq ls).2))
  else
    (some (Except.ok ⟨(parse_header header).1, (parse_header header).2,
      (seqRes is_fastq ls).1, none⟩),
     ((seqRes is_fastq ls).2.1, (seqRes is_fastq ls).2.2))

/-- Header dispatch of `Reader::next`: `>` selects FASTA, `@` selects
FASTQ, anything else is `InvalidFormat`; the header text is the trimmed
line minus the sigil byte. -/
def processHeader (l : Line) (ls : List Line) :
    Option (Except FastxErr Seq) × (Option Line × List Line) :=
  if l.head? = some 62 then afterHeader false (trim_crlf l).tail ls
  else if l.head? = some 64 then afterHeader true (trim_crlf l).tail ls
  else (some (Except.error FastxErr.invalidFormat), (none, ls))

/-- One call of `Reader::next` on the state `(lookahead_line, lines)`:
take the pending lookahead as header if present, otherwise skip
`\n`-only lines and take the first remaining line; return `none` at end
of stream. -/
def nextRec : Option Line × List Line →
    Option (Except FastxErr Seq) × (Option Line × List Line)
  | (some l, ls) => processHeader l ls
  | (none, ls) =>
    match ls.dropWhile isBlank with
    | [] => (none, (none, []))
    | l :: rest => processHeader l rest

/-- Fuel measure: remaining lines plus one for a pending lookahead. -/
def measureS : Option Line × List Line → Nat
  | (some _, ls) => ls.length + 1
  | (none, ls) => ls.length

/-- Iterate `nextRec`, collecting every emitted result (records and
errors) until the reader reports end of stream or fuel runs out. -/
def parseAllF : Nat → Option Line × List Line → List (Except FastxErr Seq)
  | 0, _ => []
  | fuel + 1, s =>
    match nextRec s with
    | (none, _) => []
    | (some r, s') => r :: parseAllF fuel s'

/-- All results of a reader run: the initial measure is enough fuel
because every successful `nextRec` call consumes at least one unit. -/
def parseAll (s : Option Line × List Line) : List (Except FastxErr Seq) :=
  parseAllF (measureS s) s

/-- `read_until(b'\n')` stream decomposition: cut after every `\n`, the
final cut possibly unterminated; `acc` holds the bytes of the current
line read so far. -/
def splitLinesAcc : List Nat → List Nat → List (List Nat)
  | acc, [] => if acc = [] then [] else [acc]
  | acc, b :: rest =>
    if b = 10 then (acc ++ [10]) :: splitLinesAcc [] rest
    else splitLinesAcc (acc ++ [b]) rest

/-- The successive `read_until(b'\n')` results for a whole byte stream. -/
def splitLines (s : List Nat) : List (List Nat) := splitLinesAcc [] s

/-- Run a fresh `Reader` over a raw byte stream. -/
def parseBytes (input : List Nat) : List (Except FastxErr Seq) :=
  parseAll (none, splitLines input)

/-! ## Stream opener (`util.rs` `xopen`) -/

/-- The compression wrapper `xopen` selects. -/
inductive Compression where
  | gzip : Compression
  | xz : Compression
  | bzip2 : Compression
  | zstd : Compression
  | plain : Compression
deriving DecidableEq, Repr

/-- `util.rs` `xopen` magic-byte dispatch over the peeked bytes, in source
order: gzip (`1F 8B`, via a length check and two indexed reads), xz, bzip2
(`"BZh"`), zstd; otherwise no compression. -/
def sniff (buf : List Nat) : Compression :=
  if 2 ≤ buf.length ∧ buf[0]? = some 31 ∧ buf[1]? = some 139 then .gzip
  else if List.isPrefixOf [253, 55, 122, 88, 90, 0] buf then .xz
  else if List.isPrefixOf [66, 90, 104] buf then .bzip2
  else if List.isPrefixOf [40, 181, 47, 253] buf then .zstd
  else .plain

/-- `xopen` on an in-memory stream: the peek does not consume, so the
returned handle still carries the whole stream. -/
def xopen (s : List Nat) : Compression × List Nat := (sniff s, s)

/-! ## Per-record operations (`seq.rs`) -/

/-- `seq.rs` `count_base_fn`: count the sequence bytes satisfying `f`. -/
def count_base_fn (seq : List Nat) (f : Nat → Bool) : Nat :=
  (seq.filter f).length

/-- `seq.rs` `gc_content`, with the `f32` ratio modelled in `ℚ`: `0` for an
empty sequence, else the count of bytes matching `b'A' | b'C' | b'G' |
b'T'` divided by the length. -/
def gc_content (seq : List Nat) : ℚ :=
  if seq.length = 0 then 0
  else (count_base_fn seq (fun b => b == 65 || b == 67 || b == 71 || b == 84) : ℚ) /
    (seq.length : ℚ)

/-- `seq.rs` `make_rc_table` entry for byte `b`: the explicit complement
assignments, everything else left at the `b'N'` fill. -/
def make_rc_table (b : Nat) : Nat :=
  if b = 65 then 84 else if b = 67 then 71 else if b = 71 then 67
  else if b = 84 then 65 else if b = 78 then 78
  else if b = 97 then 116 else if b = 99 then 103 else if b = 103 then 99
  else if b = 116 then 97 else if b = 110 then 110
  else if b = 77 then 75 else if b = 82 then 89 else if b = 87 then 87
  else if b = 83 then 83 else if b = 89 then 82 else if b = 75 then 77
  else if b = 86 then 66 else if b = 72 then 68 else if b = 68 then 72
  else if b = 66 then 86
  else if b = 109 then 107 else if b = 114 then 121 else if b = 119 then 119
  else if b = 115 then 115 else if b = 121 then 114 else if b = 107 then 109
  else if b = 118 then 118 else if b = 104 then 104 else if b = 100 then 100
  else if b = 98 then 98
  else if b = 46 then 46 else if b = 45 then 45 else if b = 32 then 32
  else 78

/-- The bytes given an explicit entry in `make_rc_table`. -/
def rcDefined : List Nat :=
  [65, 67, 71, 84, 78, 97, 99, 103, 116, 110,
   77, 82, 87, 83, 89, 75, 86, 72, 68, 66,
   109, 114, 119, 115, 121, 107, 118, 104, 100, 98,
   46, 45, 32]

/-- `seq.rs` `RC_TABLE`: the 256-entry complement table. -/
def RC_TABLE : List Nat := (List.range 256).map make_rc_table

/-- `seq.rs` `Seq::rc`: reverse iterator mapped through `RC_TABLE`. -/
def rc (seq : List Nat) : List Nat :=
  seq.reverse.map (fun b => RC_TABLE.getD b 78)

/-- `seq.rs` `Seq::rc_unchecked`: the push loop over the reversed sequence,
reading `RC_TABLE` through a raw pointer. -/
def rc_unchecked (seq : List Nat) : List Nat :=
  seq.reverse.foldl (fun res b => res ++ [RC_TABLE.getD b 78]) []

/-! ## Derived parsing views used by the statements below -/

/-- The space-or-tab test of `parse_header`, as a Bool. -/
def wsB (b : Nat) : Bool := b == 32 || b == 9

/-- The sequence region a FASTQ `next` call accumulates from `ls`. -/
def seqPart (ls : List Line) : List Nat := (seqRes true ls).1

/-- The quality region a FASTQ `next` call accumulates after the
sequence region. -/
def qualPart (ls : List Line) : List Nat := (qualRes true ls).1

/-- One wrapped physical line: content plus a terminator, `\r\n` when
`crlf` is true and bare `\n` otherwise. -/
def mkLine (c : List Nat) (crlf : Bool) : List Nat :=
  c ++ (if crlf then [13, 10] else [10])

end Fastx

namespace Fastx

/-! ## Supporting lemmas -/

theorem wsB_iff {b : Nat} : wsB b = true ↔ (b = 32 ∨ b = 9) := by
  simp [wsB]

theorem skip_ws_eq_dropWhile (l : List Nat) : skip_ws l = l.dropWhile wsB := by
  induction l with
  | nil => rfl
  | cons b rest ih =>
    by_cases h : b = 32 ∨ b = 9
    · rw [skip_ws, if_pos h, ih, List.dropWhile_cons, if_pos (wsB_iff.mpr h)]
    · rw [skip_ws, if_neg h, List.dropWhile_cons,
        if_neg (fun hw => h (wsB_iff.mp hw))]

theorem gzip_cond_iff (buf : List Nat) :
    (2 ≤ buf.length ∧ buf[0]? = some 31 ∧ buf[1]? = some 139) ↔
      [31, 139] <+: buf := by
  rw [← List.isPrefixOf_iff_prefix]
  match buf with
  | [] => simp [List.isPrefixOf]
  | [a] => simp [List.isPrefixOf]
  | a :: b :: t =>
    simp only [List.isPrefixOf, List.length_cons, List.getElem?_cons_zero,
      List.getElem?_cons_succ, Bool.and_eq_true, beq_iff_eq]
    constructor
    · rintro ⟨h1, h2, h3⟩
      simp_all [List.isPrefixOf]
    · rintro ⟨h1, h2⟩
      simp_all

theorem rc_table_lookup {b : Nat} (hb : b < 256) :
    RC_TABLE.getD b 78 = make_rc_table b := by
  simp [RC_TABLE, List.getD_eq_getElem?_getD, List.getElem?_map,
    List.getElem?_range, hb]

theorem foldl_push (f : Nat → Nat) (l acc : List Nat) :
    l.foldl (fun res b => res ++ [f b]) acc = acc ++ l.map f := by
  induction l generalizing acc with
  | nil => simp
  | cons a t ih => simp [ih]

set_option maxRecDepth 4096 in
theorem make_rc_table_default : ∀ b, b < 256 → b ∉ rcDefined →
    make_rc_table b = 78 := by decide

theorem parse_header_eq (line : List Nat) :
    parse_header line =
      (line.takeWhile (fun b => !(wsB b)),
       (line.dropWhile (fun b => !(wsB b))).dropWhile wsB) := by
  induction line with
  | nil => rfl
  | cons b rest ih =>
    by_cases h : b = 32 ∨ b = 9
    · rw [parse_header, if_pos h, skip_ws_eq_dropWhile]
      rw [List.takeWhile_cons, List.dropWhile_cons]
      simp [wsB_iff.mpr h]
    · rw [parse_header, if_neg h, ih]
      have hb : (!(wsB b)) = true := by
        rcases Bool.eq_false_or_eq_true (wsB b) with hw | hw
        · exact absurd (wsB_iff.mp hw) h
        · simp [hw]
      rw [List.takeWhile_cons, List.dropWhile_cons]
      simp [hb]

theorem measureS_mono {o : Option Line} {l1 l2 : List Line}
    (h : l1.length ≤ l2.length) : measureS (o, l1) ≤ measureS (o, l2) := by
  cases o <;> simp [measureS] <;> omega

theorem dropWhile_length_le (p : Line → Bool) (ls : List Line) :
    (ls.dropWhile p).length ≤ ls.length := by
  induction ls with
  | nil => simp
  | cons l rest ih =>
    rw [List.dropWhile_cons]
    split_ifs
    · exact le_trans ih (by simp)
    · simp

theorem dropWhile_all (p : Line → Bool) (ls : List Line)
    (h : ∀ l ∈ ls, p l = true) : ls.dropWhile p = [] := by
  induction ls with
  | nil => rfl
  | cons l rest ih =>
    rw [List.dropWhile_cons, if_pos (h l (by simp))]
    exact ih fun x hx => h x (by simp [hx])

theorem afterHeader_snd (is_fastq : Bool) (header : List Nat) (ls : List Line) :
    (afterHeader is_fastq header ls).2 =
      if is_fastq then ((seqRes is_fastq ls).2.1, (qualRes is_fastq ls).2)
      else (seqRes is_fastq ls).2 := by
  rw [afterHeader]
  cases is_fastq with
  | false => rfl
  | true =>
    simp only [if_true]
    split <;> rfl

theorem afterHeader_fst_fastq (header : List Nat) (ls : List Line) :
    (afterHeader true header ls).1 =
      if (qualPart ls).length = (seqPart ls).length
      then some (Except.ok ⟨(parse_header header).1, (parse_header header).2,
        seqPart ls, some (qualPart ls)⟩)
      else some (Except.error
        (FastxErr.unequalSeqAndQual (seqPart ls).length (qualPart ls).length)) := by
  rw [afterHeader, seqPart, qualPart]
  simp only [if_true]
  split <;> rfl

theorem seqLoop_measure (is_fastq : Bool) (acc : List Nat) (ls : List Line) :
    measureS (seqLoop is_fastq acc ls).2 ≤ ls.length := by
  induction ls generalizing acc with
  | nil => simp [seqLoop, measureS]
  | cons l rest ih =>
    rw [seqLoop]
    split_ifs with h1 h2 h3
    · exact le_trans (ih acc) (by simp)
    · simp [measureS]
    · simp [measureS]
    · exact le_trans (ih _) (by simp)

theorem qualLoop_measure (target : Nat) (qacc : List Nat) (ls : List Line) :
    (qualLoop target qacc ls).2.length ≤ ls.length := by
  induction ls generalizing qacc with
  | nil => simp [qualLoop]
  | cons l rest ih =>
    rw [qualLoop]
    split_ifs with h1 h2
    · simp
    · exact le_trans (ih qacc) (by simp)
    · exact le_trans (ih _) (by simp)

theorem afterHeader_measure (is_fastq : Bool) (header : List Nat) (ls : List Line) :
    measureS (afterHeader is_fastq header ls).2 ≤ ls.length := by
  rw [afterHeader_snd]
  cases is_fastq with
  | false => simpa [seqRes] using seqLoop_measure false [] ls
  | true =>
    simp only [if_true]
    refine le_trans (measureS_mono (qualLoop_measure _ _ _)) ?_
    rw [Prod.mk.eta]
    simpa [seqRes] using seqLoop_measure true [] ls

theorem processHeader_measure (l : Line) (ls : List Line) :
    measureS (processHeader l ls).2 ≤ ls.length := by
  rw [processHeader]
  split_ifs with h1 h2
  · exact afterHeader_measure _ _ _
  · exact afterHeader_measure _ _ _
  · simp [measureS]

theorem nextRec_measure {s s' : Option Line × List Line}
    {r : Except FastxErr Seq} (h : nextRec s = (some r, s')) :
    measureS s' < measureS s := by
  obtain ⟨look, ls⟩ := s
  cases look with
  | some l =>
    have hle := processHeader_measure l ls
    rw [nextRec] at h
    rw [h] at hle
    simpa [measureS] using Nat.lt_succ_of_le hle
  | none =>
    rw [nextRec] at h
    split at h
    · exact absurd h (by simp)
    · next l rest hd =>
      have h1 := processHeader_measure l rest
      have h2 : rest.length + 1 ≤ ls.length := by
        have h3 := dropWhile_length_le isBlank ls
        rw [hd] at h3
        simpa using h3
      rw [h] at h1
      have h1' : measureS s' ≤ rest.length := by simpa using h1
      have hg : measureS (none, ls) = ls.length := rfl
      rw [hg]
      omega

theorem parseAllF_congr : ∀ (f g : Nat) (s : Option Line × List Line),
    measureS s ≤ f → measureS s ≤ g → parseAllF f s = parseAllF g s := by
  intro f
  induction f with
  | zero =>
    intro g s hf _
    obtain ⟨look, ls⟩ := s
    have hl : look = none ∧ ls = [] := by
      cases look with
      | some l => simp [measureS] at hf
      | none =>
        simp only [measureS, Nat.le_zero] at hf
        exact ⟨rfl, List.length_eq_zero.mp hf⟩
    obtain ⟨rfl, rfl⟩ := hl
    cases g with
    | zero => rfl
    | succ g => rfl
  | succ f ih =>
    intro g s hf hg
    cases g with
    | zero =>
      obtain ⟨look, ls⟩ := s
      have hl : look = none ∧ ls = [] := by
        cases look with
        | some l => simp [measureS] at hg
        | none =>
          simp only [measureS, Nat.le_zero] at hg
          exact ⟨rfl, List.length_eq_zero.mp hg⟩
      obtain ⟨rfl, rfl⟩ := hl
      rfl
    | succ g =>
      rw [parseAllF, parseAllF]
      rcases h : nextRec s with ⟨r, s'⟩
      cases r with
      | none => rfl
      | some rec =>
        have hm := nextRec_measure h
        show rec :: parseAllF f s' = rec :: parseAllF g s'
        rw [ih g s' (by omega) (by omega)]

theorem filter_dropWhile_blank (ls : List Line) :
    ls.filter (fun l => !(isBlank l)) =
      (ls.dropWhile isBlank).filter (fun l => !(isBlank l)) := by
  induction ls with
  | nil => rfl
  | cons l rest ih =>
    by_cases hb : isBlank l
    · rw [List.filter_cons, List.dropWhile_cons, if_pos hb]
      simp only [hb, Bool.not_true, if_neg]
      exact ih
    · rw [List.dropWhile_cons, if_neg hb]

theorem head_dropWhile_not (p : Line → Bool) (ls : List Line) (l : Line)
    (rest : List Line) (h : ls.dropWhile p = l :: rest) : p l = false := by
  induction ls with
  | nil => simp at h
  | cons a t ih =>
    rw [List.dropWhile_cons] at h
    split_ifs at h with ha
    · exact ih h
    · obtain ⟨rfl, -⟩ := List.cons.inj h
      simpa using ha

theorem seqLoop_filter (is_fastq : Bool) (acc : List Nat) (ls : List Line) :
    seqLoop is_fastq acc (ls.filter (fun l => !(isBlank l))) =
      ((seqLoop is_fastq acc ls).1, (seqLoop is_fastq acc ls).2.1,
       (seqLoop is_fastq acc ls).2.2.filter (fun l => !(isBlank l))) := by
  induction ls generalizing acc with
  | nil => rfl
  | cons l rest ih =>
    by_cases hb : isBlank l
    · rw [List.filter_cons]
      simp only [hb, Bool.not_true, if_neg]
      rw [seqLoop]
      rw [if_pos hb]
      exact ih acc
    · rw [List.filter_cons]
      simp only [hb, Bool.not_false, if_pos]
      rw [seqLoop, seqLoop, if_neg hb, if_neg hb]
      by_cases h62 : l.head? = some 62
      · rw [if_pos h62, if_pos h62]
      · rw [if_neg h62, if_neg h62]
        by_cases h43 : is_fastq ∧ l.head? = some 43
        · rw [if_pos h43, if_pos h43]
        · rw [if_neg h43, if_neg h43]
          exact ih _

theorem qualLoop_done (target : Nat) (qacc : List Nat) (ls : List Line)
    (h : target ≤ qacc.length) : qualLoop target qacc ls = (qacc, ls) := by
  cases ls with
  | nil => rfl
  | cons l rest => rw [qualLoop, if_pos h]

theorem qualLoop_filter (target : Nat) (qacc : List Nat) (ls : List Line) :
    qualLoop target qacc (ls.filter (fun l => !(isBlank l))) =
      ((qualLoop target qacc ls).1,
       (qualLoop target qacc ls).2.filter (fun l => !(isBlank l))) := by
  induction ls generalizing qacc with
  | nil => rfl
  | cons l rest ih =>
    by_cases hle : target ≤ qacc.length
    · rw [qualLoop_done _ _ _ hle, qualLoop_done _ _ _ hle]
    · by_cases hb : isBlank l
      · rw [List.filter_cons]
        simp only [hb, Bool.not_true, if_neg]
        rw [qualLoop, if_neg hle, if_pos hb]
        exact ih qacc
      · rw [List.filter_cons]
        simp only [hb, Bool.not_false, if_pos]
        rw [qualLoop, qualLoop, if_neg hle, if_neg hle, if_neg hb, if_neg hb]
        exact ih _

theorem seqRes_filter (is_fastq : Bool) (ls : List Line) :
    seqRes is_fastq (ls.filter (fun l => !(isBlank l))) =
      ((seqRes is_fastq ls).1, (seqRes is_fastq ls).2.1,
       (seqRes is_fastq ls).2.2.filter (fun l => !(isBlank l))) := by
  rw [seqRes, seqRes]
  exact seqLoop_filter is_fastq [] ls

theorem qualRes_filter (is_fastq : Bool) (ls : List Line) :
    qualRes is_fastq (ls.filter (fun l => !(isBlank l))) =
      ((qualRes is_fastq ls).1,
       (qualRes is_fastq ls).2.filter (fun l => !(isBlank l))) := by
  rw [qualRes, qualRes, seqRes_filter]
  exact qualLoop_filter _ [] _

theorem afterHeader_filter (is_fastq : Bool) (header : List Nat) (ls : List Line) :
    afterHeader is_fastq header (ls.filter (fun l => !(isBlank l))) =
      ((afterHeader is_fastq header ls).1,
       ((afterHeader is_fastq header ls).2.1,
        (afterHeader is_fastq header ls).2.2.filter (fun l => !(isBlank l)))) := by
  rw [afterHeader, afterHeader]
  cases is_fastq with
  | false =>
    simp only [Bool.false_eq_true, if_false]
    rw [seqRes_filter]
  | true =>
    simp only [if_true]
    rw [seqRes_filter, qualRes_filter]
    by_cases h : (qualRes true ls).1.length = (seqRes true ls).1.length
    · rw [if_pos h, if_pos h]
    · rw [if_neg h, if_neg h]

theorem processHeader_filter (l : Line) (ls : List Line) :
    processHeader l (ls.filter (fun l => !(isBlank l))) =
      ((processHeader l ls).1,
       ((processHeader l ls).2.1,
        (processHeader l ls).2.2.filter (fun l => !(isBlank l)))) := by
  rw [processHeader, processHeader]
  by_cases h62 : l.head? = some 62
  · rw [if_pos h62, if_pos h62, afterHeader_filter]
  · rw [if_neg h62, if_neg h62]
    by_cases h64 : l.head? = some 64
    · rw [if_pos h64, if_pos h64, afterHeader_filter]
    · rw [if_neg h64, if_neg h64]

theorem dropWhile_filter_blank (ls : List Line) :
    (ls.filter (fun l => !(isBlank l))).dropWhile isBlank =
      ls.filter (fun l => !(isBlank l)) := by
  induction ls with
  | nil => rfl
  | cons l rest ih =>
    by_cases hb : isBlank l
    · rw [List.filter_cons]
      simp only [hb, Bool.not_true, if_neg]
      exact ih
    · rw [List.filter_cons]
      simp only [hb, Bool.not_false, if_pos]
      rw [List.dropWhile_cons, if_neg hb]

theorem nextRec_filter (look : Option Line) (ls : List Line) :
    nextRec (look, ls.filter (fun l => !(isBlank l))) =
      ((nextRec (look, ls)).1,
       ((nextRec (look, ls)).2.1,
        (nextRec (look, ls)).2.2.filter (fun l => !(isBlank l)))) := by
  cases look with
  | some l =>
    rw [nextRec, nextRec]
    exact processHeader_filter l ls
  | none =>
    rw [nextRec, nextRec, dropWhile_filter_blank]
    cases hd : ls.dropWhile isBlank with
    | nil =>
      have hf : ls.filter (fun l => !(isBlank l)) = [] := by
        rw [filter_dropWhile_blank, hd]
        rfl
      rw [hf]
      rfl
    | cons l rest =>
      have hl : isBlank l = false := head_dropWhile_not isBlank ls l rest hd
      have hf : ls.filter (fun l => !(isBlank l)) =
          l :: rest.filter (fun l => !(isBlank l)) := by
        rw [filter_dropWhile_blank, hd, List.filter_cons]
        simp [hl]
      rw [hf]
      exact processHeader_filter l rest

theorem parseAllF_filter : ∀ (fuel : Nat) (look : Option Line) (ls : List Line),
    parseAllF fuel (look, ls.filter (fun l => !(isBlank l))) =
      parseAllF fuel (look, ls) := by
  intro fuel
  induction fuel with
  | zero => intro look ls; rfl
  | succ fuel ih =>
    intro look ls
    rw [parseAllF, parseAllF, nextRec_filter]
    rcases h : nextRec (look, ls) with ⟨r, s'⟩
    cases r with
    | none => rfl
    | some rec =>
      show rec :: parseAllF fuel (s'.1, s'.2.filter (fun l => !(isBlank l))) =
        rec :: parseAllF fuel s'
      rw [ih s'.1 s'.2, Prod.mk.eta]

theorem trim_crlf_append_nl (c : List Nat) (h : 13 ∉ c) :
    trim_crlf (c ++ [10]) = c := by
  rw [trim_crlf]
  simp only [List.getLast?_concat, if_pos, List.dropLast_concat]
  rw [if_neg]
  intro hx
  rcases c.eq_nil_or_concat with rfl | ⟨t, a, rfl⟩
  · simp at hx
  · rw [List.concat_eq_append, List.getLast?_concat] at hx
    obtain rfl : a = 13 := by simpa using hx
    exact h (by simp [List.concat_eq_append])

theorem trim_crlf_append_crlf (c : List Nat) :
    trim_crlf (c ++ [13, 10]) = c := by
  rw [trim_crlf]
  have h1 : c ++ [13, 10] = (c ++ [13]) ++ [10] := by simp
  rw [h1]
  simp only [List.getLast?_concat, if_pos, List.dropLast_concat]

theorem splitLinesAcc_line (acc l' s : List Nat) (h : 10 ∉ l') :
    splitLinesAcc acc (l' ++ 10 :: s) =
      (acc ++ l' ++ [10]) :: splitLinesAcc [] s := by
  induction l' generalizing acc with
  | nil =>
    rw [List.nil_append, splitLinesAcc, if_pos rfl]
    simp
  | cons b t ih =>
    have hb : b ≠ 10 := fun hx => h (by simp [hx])
    rw [List.cons_append, splitLinesAcc, if_neg hb,
      ih _ (fun hx => h (by simp [hx]))]
    simp

theorem splitLines_zip (chunks : List (List Nat)) (styles : List Bool)
    (h10 : ∀ c ∈ chunks, 10 ∉ c) :
    splitLinesAcc [] (List.zipWith mkLine chunks styles).flatten =
      List.zipWith mkLine chunks styles := by
  induction chunks generalizing styles with
  | nil => rfl
  | cons c cs ih =>
    cases styles with
    | nil => rfl
    | cons st sts =>
      rw [List.zipWith_cons_cons, List.flatten_cons]
      have hc := h10 c (by simp)
      have hline : mkLine c st ++ (List.zipWith mkLine cs sts).flatten =
          (c ++ if st then [13] else []) ++
            10 :: (List.zipWith mkLine cs sts).flatten := by
        rw [mkLine]
        cases st <;> simp
      have hnot : 10 ∉ c ++ if st then [13] else [] := by
        cases st <;> simp [hc]
      rw [hline, splitLinesAcc_line [] _ _ hnot]
      rw [List.nil_append]
      congr 1
      · rw [mkLine]
        cases st <;> simp
      · exact ih sts fun x hx => h10 x (by simp [hx])

theorem seqLoop_mkLines (chunks : List (List Nat)) (styles : List Bool)
    (acc : List Nat) (hlen : styles.length = chunks.length)
    (hc : ∀ c ∈ chunks, (10 ∉ c ∧ 13 ∉ c) ∧ c.head? ≠ some 62) :
    seqLoop false acc (List.zipWith mkLine chunks styles) =
      (acc ++ chunks.flatten, none, []) := by
  induction chunks generalizing styles acc with
  | nil => simp [seqLoop]
  | cons c cs ih =>
    cases styles with
    | nil => simp at hlen
    | cons st sts =>
      have hcc := hc c (by simp)
      have hrest : ∀ x ∈ cs, (10 ∉ x ∧ 13 ∉ x) ∧ x.head? ≠ some 62 :=
        fun x hx => hc x (by simp [hx])
      have hlen' : sts.length = cs.length := by simpa using hlen
      rw [List.zipWith_cons_cons]
      rcases c with _ | ⟨b, t⟩
      · cases st with
        | false =>
          have hblank : isBlank (mkLine [] false) = true := by decide
          rw [seqLoop, if_pos hblank, ih sts acc hlen' hrest]
          simp
        | true =>
          have hblank : isBlank (mkLine [] true) = false := by decide
          rw [seqLoop, if_neg (by simp [hblank]),
            if_neg (by decide : ¬(mkLine [] true).head? = some 62),
            if_neg (by simp : ¬(false = true ∧ (mkLine [] true).head? = some 43))]
          have htrim : trim_crlf (mkLine [] true) = [] := by decide
          rw [htrim, List.append_nil, ih sts acc hlen' hrest]
          simp
      · have hhead : (mkLine (b :: t) st).head? = some b := by
          rw [mkLine]
          cases st <;> simp
        have hb10 : b ≠ 10 := fun hx => hcc.1.1 (by simp [hx])
        have hb62 : b ≠ 62 := fun hx => hcc.2 (by simp [hx])
        have hblank : isBlank (mkLine (b :: t) st) = false := by
          simp [isBlank, hhead, hb10]
        have htrim : trim_crlf (mkLine (b :: t) st) = b :: t := by
          rw [mkLine]
          cases st with
          | false => exact trim_crlf_append_nl _ hcc.1.2
          | true => exact trim_crlf_append_crlf _
        rw [seqLoop, if_neg (by simp [hblank]),
          if_neg (by simp [hhead, hb62]),
          if_neg (by simp : ¬(false = true ∧ (mkLine (b :: t) st).head? = some 43)),
          htrim, ih sts _ hlen' hrest]
        simp

theorem parseAllF_drained (n : Nat) : parseAllF n (none, []) = [] := by
  cases n with
  | zero => rfl
  | succ n => rfl

/-! ## Claim theorems -/

/-- C2 counterexample: a terminator-only line in `\r\n` style placed
before the first header is not transparent — its first byte is `\r`, not
`\n`, so it is taken as a header line and reported as an invalid-format
error, while the stream without it parses cleanly. -/
theorem crlf_blank_not_transparent :
    parseBytes [13, 10, 62, 97, 10, 65, 10] =
      [Except.error FastxErr.invalidFormat,
       Except.ok ⟨[97], [], [65], none⟩] ∧
    parseBytes [62, 97, 10, 65, 10] = [Except.ok ⟨[97], [], [65], none⟩] ∧
    parseBytes [13, 10, 62, 97, 10, 65, 10] ≠ parseBytes [62, 97, 10, 65, 10] := by
  decide

/-- C2 (amended): terminator-only lines consisting of a bare `\n` are
transparent at every position — a run is unchanged by removing all of
them, and in particular by inserting or removing one anywhere; the
original claim's `\r\n`-style blank line is not skipped where a header is
sought. -/
theorem blank_line_transparency :
    (∀ ls : List Line, parseAll (none, ls) =
      parseAll (none, ls.filter (fun l => !(isBlank l)))) ∧
    (∀ l1 l2 : List Line,
      parseAll (none, l1 ++ [10] :: l2) = parseAll (none, l1 ++ l2)) := by
  have key : ∀ ls : List Line, parseAll (none, ls) =
      parseAll (none, ls.filter (fun l => !(isBlank l))) := by
    intro ls
    rw [parseAll, parseAll]
    have h1 : measureS (none, ls) = ls.length := rfl
    have h2 : measureS (none, ls.filter (fun l => !(isBlank l))) =
        (ls.filter (fun l => !(isBlank l))).length := rfl
    rw [h1, h2, ← parseAllF_filter ls.length none ls]
    exact parseAllF_congr _ _ _
      (by rw [h2]; exact List.length_filter_le _ _)
      (by rw [h2])
  refine ⟨key, ?_⟩
  intro l1 l2
  rw [key (l1 ++ [10] :: l2), key (l1 ++ l2)]
  congr 1
  rw [List.filter_append, List.filter_append, List.filter_cons]
  simp [isBlank]

/-- C4 counterexample: the byte sequence `">A"` (no line terminators),
written as the single physical line of a record body, does not round-trip:
its leading `>` ends the record, so the parse yields two records with
empty sequences instead of one record with sequence `">A"`. -/
theorem wrapped_gt_line_counterexample :
    parseBytes [62, 104, 10, 62, 65, 10] =
      [Except.ok ⟨[104], [], [], none⟩, Except.ok ⟨[65], [], [], none⟩] ∧
    parseBytes [62, 104, 10, 62, 65, 10] ≠
      [Except.ok ⟨[104], [], [62, 65], none⟩] := by
  decide

/-- C4 (amended): for every list of chunks free of terminator bytes
(`\n`, `\r`) none of which begins with `>`, and every per-line choice of
`\n` or `\r\n` endings, parsing the record built from those wrapped lines
yields a sequence equal to the chunk concatenation, independent of the
number of lines and the ending style. -/
theorem wrapped_sequence_roundtrip (chunks : List (List Nat))
    (styles : List Bool) (hlen : styles.length = chunks.length)
    (hc : ∀ c ∈ chunks, (10 ∉ c ∧ 13 ∉ c) ∧ c.head? ≠ some 62) :
    parseBytes ([62, 104, 10] ++ (List.zipWith mkLine chunks styles).flatten) =
      [Except.ok ⟨[104], [], chunks.flatten, none⟩] := by
  set lines := List.zipWith mkLine chunks styles with hlines
  have hsplit : splitLines ([62, 104, 10] ++ lines.flatten) =
      [62, 104, 10] :: lines := by
    rw [splitLines]
    have he : ([62, 104, 10] : List Nat) ++ lines.flatten =
        [62, 104] ++ 10 :: lines.flatten := rfl
    rw [he, splitLinesAcc_line [] [62, 104] _ (by decide)]
    rw [hlines, splitLines_zip chunks styles (fun c hcc => (hc c hcc).1.1)]
    rfl
  have hseq : seqLoop false [] lines = (chunks.flatten, none, []) :=
    seqLoop_mkLines chunks styles [] hlen hc
  have hres : seqRes false lines = (chunks.flatten, none, []) := by
    rw [seqRes]
    exact hseq
  have hnext : nextRec (none, ([62, 104, 10] : Line) :: lines) =
      (some (Except.ok ⟨[104], [], chunks.flatten, none⟩), (none, [])) := by
    rw [nextRec]
    rw [List.dropWhile_cons, if_neg (by decide : ¬(isBlank [62, 104, 10] = true))]
    show processHeader [62, 104, 10] lines = _
    rw [processHeader, if_pos (by decide : ([62, 104, 10] : Line).head? = some 62)]
    rw [afterHeader]
    simp only [Bool.false_eq_true, if_false]
    rw [hres]
    rfl
  rw [parseBytes, hsplit, parseAll]
  have hm : measureS (none, ([62, 104, 10] : Line) :: lines) =
      lines.length + 1 := rfl
  rw [hm, parseAllF, hnext]
  show Except.ok (⟨[104], [], chunks.flatten, none⟩ : Seq) ::
    parseAllF lines.length (none, []) = _
  rw [parseAllF_drained]

/-- C4 witness: the sequence `"ACG"` split as `"AC"` (with `\r\n`) and
`"G"` (with `\n`) reassembles to `"ACG"`. -/
theorem wrapped_sequence_roundtrip_witness :
    (([true, false] : List Bool).length = ([[65, 67], [71]] : List (List Nat)).length) ∧
    parseBytes ([62, 104, 10] ++
      (List.zipWith mkLine [[65, 67], [71]] [true, false]).flatten) =
      [Except.ok ⟨[104], [], [65, 67, 71], none⟩] :=
  ⟨by decide, wrapped_sequence_roundtrip [[65, 67], [71]] [true, false]
    (by decide) (by decide)⟩

/-- C1: a FASTQ `next` call emits a record only when the quality region's
length equals the sequence region's length, and in that case the record
carries exactly those regions; when the lengths differ in either
direction the call returns the length-mismatch error carrying
`(expected = sequence length, actual = quality length)`. -/
theorem fastq_length_invariant (header : List Nat) (ls : List Line) :
    ((qualPart ls).length = (seqPart ls).length →
      (afterHeader true header ls).1 = some (Except.ok
        ⟨(parse_header header).1, (parse_header header).2,
         seqPart ls, some (qualPart ls)⟩)) ∧
    ((qualPart ls).length ≠ (seqPart ls).length →
      (afterHeader true header ls).1 = some (Except.error
        (FastxErr.unequalSeqAndQual (seqPart ls).length (qualPart ls).length))) ∧
    (∀ r, (afterHeader true header ls).1 = some (Except.ok r) →
      ∃ q, r.qual = some q ∧ q.length = r.seq.length) := by
  rw [afterHeader_fst_fastq]
  by_cases h : (qualPart ls).length = (seqPart ls).length
  · rw [if_pos h]
    refine ⟨fun _ => rfl, fun hne => absurd h hne, ?_⟩
    intro r hr
    obtain rfl : (⟨(parse_header header).1, (parse_header header).2,
        seqPart ls, some (qualPart ls)⟩ : Seq) = r := by simpa using hr
    exact ⟨qualPart ls, rfl, h⟩
  · rw [if_neg h]
    refine ⟨fun he => absurd he h, fun _ => rfl, ?_⟩
    intro r hr
    simp at hr

/-- C1 witness: the undershoot stream `"AAAA\n+\nJJ\n"` after header
`"r"`: sequence length 4, quality length 2, and the call returns the
mismatch error `(4, 2)`. -/
theorem fastq_length_invariant_witness :
    (qualPart [[65, 65, 65, 65, 10], [43, 10], [74, 74, 10]]).length ≠
      (seqPart [[65, 65, 65, 65, 10], [43, 10], [74, 74, 10]]).length ∧
    (afterHeader true [114] [[65, 65, 65, 65, 10], [43, 10], [74, 74, 10]]).1 =
      some (Except.error (FastxErr.unequalSeqAndQual 4 2)) :=
  ⟨by decide, (fastq_length_invariant [114]
    [[65, 65, 65, 65, 10], [43, 10], [74, 74, 10]]).2.1 (by decide)⟩

/-- C3: during sequence accumulation a line whose first byte is `>` ends
the record and is stored whole (untrimmed, terminator included) in the
lookahead slot with the stream untouched past it; a call that starts with
a pending lookahead parses it as the header; and the concrete stream
`">a\nAA\nTT\n>b\nCC\n"` parses to exactly the records
`("a", "AATT", no quality)` and `("b", "CC", no quality)`. -/
theorem lookahead_boundary :
    parseBytes [62, 97, 10, 65, 65, 10, 84, 84, 10, 62, 98, 10, 67, 67, 10] =
      [Except.ok ⟨[97], [], [65, 65, 84, 84], none⟩,
       Except.ok ⟨[98], [], [67, 67], none⟩] ∧
    (∀ (is_fastq : Bool) (acc : List Nat) (l : Line) (rest : List Line),
      l.head? = some 62 →
      seqLoop is_fastq acc (l :: rest) = (acc, some l, rest)) ∧
    (∀ (l : Line) (ls : List Line), nextRec (some l, ls) = processHeader l ls) := by
  refine ⟨by decide, ?_, fun _ _ => rfl⟩
  intro f acc l rest h
  rw [seqLoop]
  have hnb : isBlank l = false := by simp [isBlank, h]
  rw [if_neg (by simp [hnb]), if_pos h]

/-- C3 witness: the `">b\n"` line met mid-sequence is kept verbatim as
lookahead and the already-accumulated sequence bytes are untouched. -/
theorem lookahead_boundary_witness :
    ([62, 98, 10] : Line).head? = some 62 ∧
    seqLoop false [65, 65] ([62, 98, 10] :: [[67, 67, 10]]) =
      ([65, 65], some [62, 98, 10], [[67, 67, 10]]) :=
  ⟨by decide, lookahead_boundary.2.1 false [65, 65] [62, 98, 10]
    [[67, 67, 10]] (by decide)⟩

/-- C6 counterexample: a stream consisting of a single terminator-only
line in `\r\n` style does not yield zero records and no error — its
first byte `\r` is not skipped where a header is sought, so the stream
parses to the invalid-format error. -/
theorem crlf_only_stream_counterexample :
    parseBytes [13, 10] = [Except.error FastxErr.invalidFormat] ∧
    parseBytes [13, 10] ≠ [] := by
  decide

/-- C6 (amended): an empty stream yields no records and no error; a
stream of bare-`\n` terminator-only lines likewise (the first `next`
call reports end of stream) — a `\r\n`-only line is instead taken as a
header line and fails; and the unterminated stream `">seq1"` still
yields one record with id `"seq1"` and an empty sequence. -/
theorem end_of_stream_behavior :
    parseBytes [] = [] ∧
    (∀ ls : List Line, (∀ l ∈ ls, isBlank l = true) →
      nextRec (none, ls) = (none, (none, [])) ∧ parseAll (none, ls) = []) ∧
    parseBytes [62, 115, 101, 113, 49] =
      [Except.ok ⟨[115, 101, 113, 49], [], [], none⟩] := by
  refine ⟨by decide, ?_, by decide⟩
  intro ls h
  have hd : ls.dropWhile isBlank = [] := dropWhile_all isBlank ls h
  have hn : nextRec (none, ls) = (none, (none, [])) := by
    rw [nextRec, hd]
  refine ⟨hn, ?_⟩
  rw [parseAll]
  cases hm : measureS (none, ls) with
  | zero => rfl
  | succ n => rw [parseAllF, hn]

/-- C6 witness: two bare-terminator lines are skipped and the stream ends
with no record. -/
theorem end_of_stream_behavior_witness :
    (∀ l ∈ [[10], [10]], isBlank l = true) ∧
    nextRec (none, [[10], [10]]) = (none, (none, [])) ∧
    parseAll (none, [[10], [10]]) = [] :=
  ⟨by decide, end_of_stream_behavior.2.1 [[10], [10]] (by decide)⟩

/-- C7: exhaustion is monotone — a call that reports end of stream leaves
the reader in the drained state `(no lookahead, no lines)`, from which
every further call reports end of stream again. -/
theorem exhaustion_monotone (s s' : Option Line × List Line)
    (h : nextRec s = (none, s')) :
    s' = (none, []) ∧ nextRec s' = (none, s') := by
  obtain ⟨look, ls⟩ := s
  cases look with
  | some l =>
    rw [nextRec] at h
    have hne : (processHeader l ls).1 ≠ none := by
      rw [processHeader]
      split_ifs with h1 h2
      · rw [afterHeader]
        split_ifs <;> simp
      · rw [afterHeader]
        split_ifs <;> simp
      · simp
    rw [h] at hne
    simp at hne
  | none =>
    rw [nextRec] at h
    split at h
    · obtain ⟨-, rfl⟩ := Prod.mk.inj h
      exact ⟨rfl, rfl⟩
    · next l rest hd =>
      have hne : (processHeader l rest).1 ≠ none := by
        rw [processHeader]
        split_ifs with h1 h2
        · rw [afterHeader]
          split_ifs <;> simp
        · rw [afterHeader]
          split_ifs <;> simp
        · simp
      rw [h] at hne
      simp at hne

/-- C7 witness: after draining a blank-only stream, the next call still
reports end of stream on the drained state. -/
theorem exhaustion_monotone_witness :
    nextRec (none, [[10]]) = (none, (none, [])) ∧
    nextRec (none, []) = (none, (none, [])) :=
  ⟨by decide, (exhaustion_monotone (none, [[10]]) (none, []) (by decide)).2⟩

/-- C5: for every header text, `parse_header` returns as id the maximal
leading run of bytes that are neither space nor tab, and as description
the remainder after additionally skipping the following space/tab run; in
particular `"id   desc"` splits into `"id"` and `"desc"`, a header without
whitespace is all id with empty description, and an empty header gives two
empty fields. -/
theorem header_split_correct :
    (∀ line : List Nat, parse_header line =
      (line.takeWhile (fun b => !(wsB b)),
       (line.dropWhile (fun b => !(wsB b))).dropWhile wsB)) ∧
    parse_header [105, 100, 32, 32, 32, 100, 101, 115, 99] =
      ([105, 100], [100, 101, 115, 99]) ∧
    parse_header [105, 100, 95, 111, 110, 108, 121] =
      ([105, 100, 95, 111, 110, 108, 121], []) ∧
    parse_header [] = ([], []) :=
  ⟨parse_header_eq, by decide, by decide, by decide⟩

/-- C8: the opener matches the peeked bytes against the gzip, xz, bzip2
and zstd magic prefixes in that order, the first match winning; when none
matches the stream is passed through uncompressed, the peeked bytes still
available for consumption. -/
theorem xopen_magic_dispatch (buf : List Nat) :
    (sniff buf = Compression.gzip ↔ [31, 139] <+: buf) ∧
    (sniff buf = Compression.xz ↔
      (¬ [31, 139] <+: buf ∧ [253, 55, 122, 88, 90, 0] <+: buf)) ∧
    (sniff buf = Compression.bzip2 ↔
      (¬ [31, 139] <+: buf ∧ ¬ [253, 55, 122, 88, 90, 0] <+: buf ∧
       [66, 90, 104] <+: buf)) ∧
    (sniff buf = Compression.zstd ↔
      (¬ [31, 139] <+: buf ∧ ¬ [253, 55, 122, 88, 90, 0] <+: buf ∧
       ¬ [66, 90, 104] <+: buf ∧ [40, 181, 47, 253] <+: buf)) ∧
    (sniff buf = Compression.plain ↔
      (¬ [31, 139] <+: buf ∧ ¬ [253, 55, 122, 88, 90, 0] <+: buf ∧
       ¬ [66, 90, 104] <+: buf ∧ ¬ [40, 181, 47, 253] <+: buf)) ∧
    (xopen buf).2 = buf := by
  rw [sniff]
  split_ifs with h1 h2 h3 h4 <;>
    simp_all [gzip_cond_iff, List.isPrefixOf_iff_prefix, xopen]

/-- C9 (code bug): on the all-`A` sequence `"AAAA"` the code's
`gc_content` returns `1`, because its predicate counts every byte matching
`b'A' | b'C' | b'G' | b'T'`, while the GC-content (bytes that are `G` or
`C`, here none) is `0`. -/
theorem gc_content_counts_acgt :
    gc_content [65, 65, 65, 65] = 1 ∧
    ([65, 65, 65, 65].filter (fun b => b == 71 || b == 67)).length = 0 := by
  constructor
  · norm_num [gc_content, count_base_fn, List.filter]
  · decide

/-- C10: `rc` and `rc_unchecked` agree on every sequence, both computing the
reverse of the sequence with each byte replaced by its `RC_TABLE` entry,
and every byte without an explicit complement entry maps to `b'N'`. -/
theorem rc_unchecked_refines_rc (seq : List Nat) (hb : ∀ b ∈ seq, b < 256) :
    rc_unchecked seq = rc seq ∧
    rc seq = seq.reverse.map make_rc_table ∧
    (∀ b, b < 256 → b ∉ rcDefined → make_rc_table b = 78) := by
  refine ⟨?_, ?_, make_rc_table_default⟩
  · rw [rc_unchecked, rc, foldl_push]
    simp
  · rw [rc]
    exact List.map_congr_left fun a ha =>
      rc_table_lookup (hb a (List.mem_reverse.mp ha))

/-- C10 witness: the agreement instantiated on the concrete sequence
`"AC?"`, whose hypothesis is discharged by computation. -/
theorem rc_unchecked_refines_rc_witness :
    (∀ b ∈ [65, 67, 63], b < 256) ∧
    rc_unchecked [65, 67, 63] = rc [65, 67, 63] ∧
    rc [65, 67, 63] = [65, 67, 63].reverse.map make_rc_table :=
  ⟨by decide, (rc_unchecked_refines_rc [65, 67, 63] (by decide)).1,
    (rc_unchecked_refines_rc [65, 67, 63] (by decide)).2.1⟩

end Fastx

